import Mathlib

/-!
Verification of the CodeEvalSolutions repository against its specification.

Part 1 models `src/triangle_search.py`: Python objects are represented by an
explicit arena (`heap : List NumNode`) with node identity given by the arena
index, the `node_cache` dictionary by an association list, and attribute
mutation by functional update of the arena.  Fallible operations (list
indexing, the explicit `raise`) are modelled with `Option`/`Except`.

Part 2 models `src/wifi_search.py`: Python floats are modelled by exact
rational arithmetic (`ℚ`) except for the trigonometric `azimuth_to_vector`,
which is modelled over `ℝ`.  Python's `ZeroDivisionError` is modelled by a
checked division returning `none` on a zero divisor.
-/

namespace TriangleSearch

/-- Arena representation of a Python `NumNode` object: `value`, `left`,
`right`, `cached_sum` attributes; child references are arena indices. -/
structure NumNode where
  value : Int
  left : Option Nat
  right : Option Nat
  cached_sum : Option Int
deriving DecidableEq, Repr

/-- The mutable state of `create_num_tree`: the arena of allocated nodes and
the `node_cache` dictionary keyed by `(num_list_level, num_list_index)`. -/
structure BuildState where
  heap : List NumNode
  cache : List ((Nat × Nat) × Nat)
deriving DecidableEq, Repr

/-- Dictionary lookup in the node cache. -/
def cacheLookup (c : List ((Nat × Nat) × Nat)) (k : Nat × Nat) : Option Nat :=
  match c with
  | [] => none
  | (k', v) :: rest => if k' = k then some v else cacheLookup rest k

/-- The assignment `node.left = child` on the node with arena index `nid`. -/
def setLeft (h : List NumNode) (nid lid : Nat) : List NumNode :=
  match h[nid]? with
  | some n => h.set nid { n with left := some lid }
  | none => h

/-- The assignment `node.right = child` on the node with arena index `nid`. -/
def setRight (h : List NumNode) (nid rid : Nat) : List NumNode :=
  match h[nid]? with
  | some n => h.set nid { n with right := some rid }
  | none => h

/-- The recursive helper `populate_tree` of `create_num_tree`.  Returns the
updated state together with the arena index of the node for
`(num_list_level, num_list_index)`; `none` models a Python `IndexError` on
`nums[num_list_level][num_list_index]`.  `fuel` bounds the recursion depth
(the Python recursion terminates because the level grows towards the last
row; `create_num_tree` passes `nums.length`, which is always sufficient, so
fuel exhaustion never occurs there). -/
def populateTree (nums : List (List Int)) :
    Nat → Nat → Nat → BuildState → Option (BuildState × Nat)
  | 0, _, _, _ => none
  | fuel + 1, level, index, s =>
    match cacheLookup s.cache (level, index) with
    | some nid => some (s, nid)
    | none =>
      if level < nums.length then
        match (nums.getD level [])[index]? with
        | none => none
        | some v =>
          let nid := s.heap.length
          let s1 : BuildState :=
            ⟨s.heap ++ [⟨v, none, none, none⟩], ((level, index), nid) :: s.cache⟩
          if level = nums.length - 1 then
            some (s1, nid)
          else
            match populateTree nums fuel (level + 1) index s1 with
            | none => none
            | some (s2, lid) =>
              match populateTree nums fuel (level + 1) (index + 1)
                  ⟨setLeft s2.heap nid lid, s2.cache⟩ with
              | none => none
              | some (s3, rid) => some (⟨setRight s3.heap nid rid, s3.cache⟩, nid)
      else none

/-- The distinguishable failure modes of `create_num_tree`: the explicit
`raise Exception("List of lists must be non-empty")` versus a Python
`IndexError` from indexing a malformed row list. -/
inductive BuildError where
  | invalidInput
  | indexError
deriving DecidableEq, Repr

/-- A Python `NumTree` object (root reference) together with the arena the
nodes live in. -/
structure NumTree where
  heap : List NumNode
  root : Nat
deriving DecidableEq, Repr

/-- `create_num_tree`. -/
def create_num_tree (nums : List (List Int)) : Except BuildError NumTree :=
  if nums.length = 0 then .error .invalidInput
  else
    match populateTree nums nums.length 0 0 ⟨[], []⟩ with
    | none => .error .indexError
    | some (s, root) => .ok ⟨s.heap, root⟩

/-- The recursive helper `find_max` of `find_max_sum`.  The arena is threaded
explicitly because the function mutates `cached_sum` attributes.  `fuel`
bounds the recursion depth (the Python recursion terminates because the node
graph built by `create_num_tree` is acyclic, which the arena representation
cannot express structurally); `none` is returned on fuel exhaustion or a
dangling arena index, neither of which occurs on trees built by
`create_num_tree`. -/
def find_max : List NumNode → Nat → Option Nat → Option (List NumNode × Int)
  | heap, _, none => some (heap, 0)
  | _, 0, some _ => none
  | heap, fuel + 1, some nid =>
    match heap[nid]? with
    | none => none
    | some n =>
      match n.cached_sum with
      | some c => some (heap, c)
      | none =>
        match find_max heap fuel n.left with
        | none => none
        | some (h1, lsum) =>
          match h1[nid]? with
          | none => none
          | some n1 =>
            match find_max h1 fuel n1.right with
            | none => none
            | some (h2, rsum) =>
              match h2[nid]? with
              | none => none
              | some n2 =>
                let cached := n.value + max lsum rsum
                some (h2.set nid { n2 with cached_sum := some cached }, cached)

/-- `find_max_sum`, returning the mutated tree together with the result. -/
def find_max_sum (tree : NumTree) : Option (NumTree × Int) :=
  match find_max tree.heap tree.heap.length (some tree.root) with
  | none => none
  | some (h, v) => some (⟨h, tree.root⟩, v)

/-- The number stored at row `l`, position `i` of the input. -/
def valAt (nums : List (List Int)) (l i : Nat) : Int := (nums.getD l []).getD i 0

/-- Mathematical description of the value `find_max` computes for the node at
`(l, i)`: the maximum sum over downward paths from that position. -/
def trueVal (nums : List (List Int)) (l i : Nat) : Int :=
  if l + 1 < nums.length then
    valAt nums l i + max (trueVal nums (l + 1) i) (trueVal nums (l + 1) (i + 1))
  else valAt nums l i
termination_by nums.length - l

/-- Well-formed triangular input: non-empty, and row `l` has `l + 1` numbers. -/
def WFRows (nums : List (List Int)) : Prop :=
  nums ≠ [] ∧ ∀ l, l < nums.length → (nums.getD l []).length = l + 1

instance (nums : List (List Int)) : Decidable (WFRows nums) := by
  unfold WFRows; infer_instance

/-! ### Basic facts about the cache and the arena -/

theorem cacheLookup_cons (k0 : Nat × Nat) (v0 : Nat) (c : List ((Nat × Nat) × Nat))
    (k : Nat × Nat) :
    cacheLookup ((k0, v0) :: c) k = if k0 = k then some v0 else cacheLookup c k := rfl

theorem mem_of_cacheLookup {c : List ((Nat × Nat) × Nat)} {k : Nat × Nat} {v : Nat}
    (h : cacheLookup c k = some v) : (k, v) ∈ c := by
  induction c with
  | nil => simp [cacheLookup] at h
  | cons e rest ih =>
    obtain ⟨k0, v0⟩ := e
    rw [cacheLookup_cons] at h
    by_cases hk : k0 = k
    · simp [hk] at h
      simp [hk, h]
    · simp [hk] at h
      exact List.mem_cons_of_mem _ (ih h)

theorem fst_not_mem_of_cacheLookup_none {c : List ((Nat × Nat) × Nat)} {k : Nat × Nat}
    (h : cacheLookup c k = none) : k ∉ c.map Prod.fst := by
  induction c with
  | nil => simp
  | cons e rest ih =>
    obtain ⟨k0, v0⟩ := e
    rw [cacheLookup_cons] at h
    by_cases hk : k0 = k
    · simp [hk] at h
    · simp [hk] at h
      simp [Ne.symm hk, ih h]

theorem snd_mem_of_cacheLookup {c : List ((Nat × Nat) × Nat)} {k : Nat × Nat} {v : Nat}
    (h : cacheLookup c k = some v) : v ∈ c.map Prod.snd :=
  List.mem_map.mpr ⟨(k, v), mem_of_cacheLookup h, rfl⟩

/-- Distinct node ids imply that the cache maps distinct keys to distinct ids. -/
theorem cacheLookup_inj {c : List ((Nat × Nat) × Nat)}
    (hnd : (c.map Prod.snd).Nodup) {k1 k2 : Nat × Nat} {v : Nat}
    (h1 : cacheLookup c k1 = some v) (h2 : cacheLookup c k2 = some v) : k1 = k2 := by
  induction c with
  | nil => simp [cacheLookup] at h1
  | cons e rest ih =>
    obtain ⟨k0, v0⟩ := e
    simp only [List.map_cons, List.nodup_cons] at hnd
    rw [cacheLookup_cons] at h1 h2
    by_cases ha : k0 = k1 <;> by_cases hb : k0 = k2
    · rw [← ha, ← hb]
    · simp [ha] at h1
      simp [hb] at h2
      exact absurd (h1 ▸ snd_mem_of_cacheLookup h2) hnd.1
    · simp [ha] at h1
      simp [hb] at h2
      exact absurd (h2 ▸ snd_mem_of_cacheLookup h1) hnd.1
    · simp [ha] at h1
      simp [hb] at h2
      exact ih hnd.2 h1 h2

theorem setLeft_length (h : List NumNode) (nid lid : Nat) :
    (setLeft h nid lid).length = h.length := by
  unfold setLeft
  rcases hx : h[nid]? with _ | n <;> simp

theorem setRight_length (h : List NumNode) (nid rid : Nat) :
    (setRight h nid rid).length = h.length := by
  unfold setRight
  rcases hx : h[nid]? with _ | n <;> simp

theorem setLeft_get_ne (h : List NumNode) (nid lid j : Nat) (hj : j ≠ nid) :
    (setLeft h nid lid)[j]? = h[j]? := by
  unfold setLeft
  rcases hx : h[nid]? with _ | n
  · rfl
  · simp [List.getElem?_set_ne (Ne.symm hj)]

theorem setRight_get_ne (h : List NumNode) (nid rid j : Nat) (hj : j ≠ nid) :
    (setRight h nid rid)[j]? = h[j]? := by
  unfold setRight
  rcases hx : h[nid]? with _ | n
  · rfl
  · simp [List.getElem?_set_ne (Ne.symm hj)]

theorem setLeft_get_self {h : List NumNode} {nid : Nat} {n : NumNode}
    (hx : h[nid]? = some n) (lid : Nat) :
    (setLeft h nid lid)[nid]? = some { n with left := some lid } := by
  have hlt : nid < h.length := by
    rcases List.getElem?_eq_some_iff.mp hx with ⟨h1, _⟩
    exact h1
  unfold setLeft
  rw [hx]
  simp [List.getElem?_set_self, hlt]

theorem setRight_get_self {h : List NumNode} {nid : Nat} {n : NumNode}
    (hx : h[nid]? = some n) (rid : Nat) :
    (setRight h nid rid)[nid]? = some { n with right := some rid } := by
  have hlt : nid < h.length := by
    rcases List.getElem?_eq_some_iff.mp hx with ⟨h1, _⟩
    exact h1
  unfold setRight
  rw [hx]
  simp [List.getElem?_set_self, hlt]

/-! ### Invariants of the construction -/

/-- Invariant holding at every intermediate state of `create_num_tree`:
node ids in the cache are exactly the arena indices allocated so far (newest
first), cache keys are distinct and in range, and every cached node stores the
number of its position with an empty sum cache. -/
def PartialOK (nums : List (List Int)) (s : BuildState) : Prop :=
  s.cache.map Prod.snd = (List.range s.heap.length).reverse ∧
  (s.cache.map Prod.fst).Nodup ∧
  ∀ l i id, cacheLookup s.cache (l, i) = some id →
    l < nums.length ∧ i ≤ l ∧
    ∃ n, s.heap[id]? = some n ∧ n.value = valAt nums l i ∧ n.cached_sum = none

/-- State evolution during the build: cache entries and already-allocated
arena slots are preserved. -/
def Mono (s s' : BuildState) : Prop :=
  (∀ k v, cacheLookup s.cache k = some v → cacheLookup s'.cache k = some v) ∧
  s.heap.length ≤ s'.heap.length ∧
  ∀ j, j < s.heap.length → s'.heap[j]? = s.heap[j]?

/-- The subgraph rooted at position `(l, i)` is completely built: the node is
cached with the right value, and (below the last row) its `left`/`right`
references are exactly the cached nodes of the two child positions, which are
themselves completely built. -/
def Done (nums : List (List Int)) (s : BuildState) (l i : Nat) : Prop :=
  ∃ id n, cacheLookup s.cache (l, i) = some id ∧ s.heap[id]? = some n ∧
    n.value = valAt nums l i ∧ n.cached_sum = none ∧
    (if _h : l + 1 < nums.length then
      (∃ lid, cacheLookup s.cache (l + 1, i) = some lid ∧ n.left = some lid) ∧
      (∃ rid, cacheLookup s.cache (l + 1, i + 1) = some rid ∧ n.right = some rid) ∧
      Done nums s (l + 1) i ∧ Done nums s (l + 1) (i + 1)
    else n.left = none ∧ n.right = none)
termination_by nums.length - l

/-- All cache entries at levels `≥ L` are completely built (mid-build, the
pending entries are exactly the ancestors on the recursion stack, which live
at levels `< L`). -/
def DoneAbove (nums : List (List Int)) (s : BuildState) (L : Nat) : Prop :=
  ∀ l i, L ≤ l → (cacheLookup s.cache (l, i)).isSome → Done nums s l i

theorem Mono_refl (s : BuildState) : Mono s s :=
  ⟨fun _ _ h => h, le_refl _, fun _ _ => rfl⟩

theorem Mono_trans {s1 s2 s3 : BuildState} (h12 : Mono s1 s2) (h23 : Mono s2 s3) :
    Mono s1 s3 := by
  refine ⟨fun k v h => h23.1 k v (h12.1 k v h), le_trans h12.2.1 h23.2.1, fun j hj => ?_⟩
  rw [h23.2.2 j (lt_of_lt_of_le hj h12.2.1), h12.2.2 j hj]

theorem id_lt_heap_of_lookup {nums : List (List Int)} {s : BuildState}
    (hok : PartialOK nums s) {l i id : Nat}
    (h : cacheLookup s.cache (l, i) = some id) : id < s.heap.length := by
  have := snd_mem_of_cacheLookup h
  rw [hok.1] at this
  simpa using this

theorem ids_nodup {nums : List (List Int)} {s : BuildState} (hok : PartialOK nums s) :
    (s.cache.map Prod.snd).Nodup := by
  rw [hok.1]
  exact List.nodup_reverse.mpr (List.nodup_range _)

/-- `PartialOK` only inspects node values and sum caches, so it survives any
heap modification that preserves both. -/
theorem PartialOK_heap_congr {nums : List (List Int)} {s s' : BuildState}
    (hc : s'.cache = s.cache) (hlen : s'.heap.length = s.heap.length)
    (hpres : ∀ (j : Nat) (n : NumNode), s.heap[j]? = some n →
      ∃ n', s'.heap[j]? = some n' ∧ n'.value = n.value ∧ n'.cached_sum = n.cached_sum)
    (hok : PartialOK nums s) : PartialOK nums s' := by
  refine ⟨by rw [hc, hlen]; exact hok.1, by rw [hc]; exact hok.2.1, ?_⟩
  intro l i id hl
  rw [hc] at hl
  obtain ⟨h1, h2, n, hn, hv, hcs⟩ := hok.2.2 l i id hl
  obtain ⟨n', hn', hv', hcs'⟩ := hpres id n hn
  exact ⟨h1, h2, n', hn', by rw [hv', hv], by rw [hcs', hcs]⟩

/-- Complete subgraphs stay complete as the build extends the state. -/
theorem Done_mono_aux {nums : List (List Int)} {s s' : BuildState}
    (hok : PartialOK nums s) (hm : Mono s s') :
    ∀ b l i, nums.length - l < b → Done nums s l i → Done nums s' l i := by
  intro b
  induction b with
  | zero => omega
  | succ b ih =>
    intro l i hb hd
    rw [Done] at hd
    obtain ⟨id, n0, hlook, hget, hval, hcs, hrest⟩ := hd
    have hid : id < s.heap.length := id_lt_heap_of_lookup hok hlook
    rw [Done]
    refine ⟨id, n0, hm.1 _ _ hlook, by rw [hm.2.2 id hid]; exact hget, hval, hcs, ?_⟩
    by_cases hl : l + 1 < nums.length
    · rw [dif_pos hl] at hrest ⊢
      obtain ⟨⟨lid, hl1, hl2⟩, ⟨rid, hr1, hr2⟩, hdl, hdr⟩ := hrest
      exact ⟨⟨lid, hm.1 _ _ hl1, hl2⟩, ⟨rid, hm.1 _ _ hr1, hr2⟩,
        ih _ _ (by omega) hdl, ih _ _ (by omega) hdr⟩
    · rw [dif_neg hl] at hrest ⊢
      exact hrest

theorem Done_mono {nums : List (List Int)} {s s' : BuildState}
    (hok : PartialOK nums s) (hm : Mono s s') {l i : Nat}
    (hd : Done nums s l i) : Done nums s' l i :=
  Done_mono_aux hok hm (nums.length - l + 1) l i (by omega) hd

/-- A heap update at the arena slot of a node cached at key `(L, I)` cannot
disturb completeness of a subgraph whose positions all differ from `(L, I)`. -/
theorem Done_update_other {nums : List (List Int)} {s s' : BuildState} {L I p : Nat}
    (hok : PartialOK nums s) (hP : cacheLookup s.cache (L, I) = some p)
    (hc : s'.cache = s.cache)
    (hpres : ∀ j, j ≠ p → s'.heap[j]? = s.heap[j]?) :
    ∀ b l i, (L < l ∨ (L = l ∧ I ≠ i)) → nums.length - l < b →
      Done nums s l i → Done nums s' l i := by
  intro b
  induction b with
  | zero => omega
  | succ b ih =>
    intro l i hne hb hd
    rw [Done] at hd
    obtain ⟨id, n0, hlook, hget, hval, hcs, hrest⟩ := hd
    have hkey : (l, i) ≠ (L, I) := by
      intro h
      have h1 : l = L := congrArg Prod.fst h
      have h2 : i = I := congrArg Prod.snd h
      rcases hne with h3 | ⟨h3, h4⟩
      · omega
      · exact h4 h2.symm
    have hidp : id ≠ p := by
      intro h
      exact hkey (cacheLookup_inj (ids_nodup hok) hlook (h ▸ hP))
    rw [Done]
    refine ⟨id, n0, by rw [hc]; exact hlook, by rw [hpres id hidp]; exact hget,
      hval, hcs, ?_⟩
    by_cases hl : l + 1 < nums.length
    · rw [dif_pos hl] at hrest ⊢
      obtain ⟨⟨lid, hl1, hl2⟩, ⟨rid, hr1, hr2⟩, hdl, hdr⟩ := hrest
      have hL1 : L < l + 1 := by rcases hne with h3 | ⟨h3, _⟩ <;> omega
      exact ⟨⟨lid, by rw [hc]; exact hl1, hl2⟩, ⟨rid, by rw [hc]; exact hr1, hr2⟩,
        ih _ _ (Or.inl hL1) (by omega) hdl, ih _ _ (Or.inl hL1) (by omega) hdr⟩
    · rw [dif_neg hl] at hrest ⊢
      exact hrest

theorem Done_update_other' {nums : List (List Int)} {s s' : BuildState} {L I p : Nat}
    (hok : PartialOK nums s) (hP : cacheLookup s.cache (L, I) = some p)
    (hc : s'.cache = s.cache)
    (hpres : ∀ j, j ≠ p → s'.heap[j]? = s.heap[j]?) {l i : Nat}
    (hne : L < l ∨ (L = l ∧ I ≠ i)) (hd : Done nums s l i) : Done nums s' l i :=
  Done_update_other hok hP hc hpres (nums.length - l + 1) l i hne (by omega) hd

theorem PartialOK_setLeft {nums : List (List Int)} {s : BuildState}
    (hok : PartialOK nums s) (nid lid : Nat) :
    PartialOK nums ⟨setLeft s.heap nid lid, s.cache⟩ := by
  refine @PartialOK_heap_congr nums s ⟨setLeft s.heap nid lid, s.cache⟩ rfl
    (setLeft_length _ _ _) ?_ hok
  intro j n hn
  by_cases hj : j = nid
  · subst hj
    exact ⟨{ n with left := some lid }, setLeft_get_self hn lid, rfl, rfl⟩
  · exact ⟨n, by rw [setLeft_get_ne _ _ _ _ hj]; exact hn, rfl, rfl⟩

theorem PartialOK_setRight {nums : List (List Int)} {s : BuildState}
    (hok : PartialOK nums s) (nid rid : Nat) :
    PartialOK nums ⟨setRight s.heap nid rid, s.cache⟩ := by
  refine @PartialOK_heap_congr nums s ⟨setRight s.heap nid rid, s.cache⟩ rfl
    (setRight_length _ _ _) ?_ hok
  intro j n hn
  by_cases hj : j = nid
  · subst hj
    exact ⟨{ n with right := some rid }, setRight_get_self hn rid, rfl, rfl⟩
  · exact ⟨n, by rw [setRight_get_ne _ _ _ _ hj]; exact hn, rfl, rfl⟩

theorem valAt_eq {nums : List (List Int)} {level index : Nat} {v : Int}
    (h : (nums.getD level [])[index]? = some v) :
    valAt nums level index = v := by
  unfold valAt
  rw [List.getD_eq_getElem?_getD, h]
  rfl

/-! ### Evaluation equations for `populateTree` -/

theorem populateTree_hit {nums : List (List Int)} {level index : Nat} {s : BuildState}
    {nid : Nat} (h : cacheLookup s.cache (level, index) = some nid) (fuel : Nat) :
    populateTree nums (fuel + 1) level index s = some (s, nid) := by
  rw [populateTree]
  simp only [h]

theorem populateTree_miss_leaf {nums : List (List Int)} {level index : Nat} {s : BuildState}
    {v : Int} (hcl : cacheLookup s.cache (level, index) = none)
    (hlev : level < nums.length)
    (hv : (nums.getD level [])[index]? = some v)
    (hleaf : level = nums.length - 1) (fuel : Nat) :
    populateTree nums (fuel + 1) level index s =
      some (⟨s.heap ++ [⟨v, none, none, none⟩],
        ((level, index), s.heap.length) :: s.cache⟩, s.heap.length) := by
  rw [populateTree]
  simp only [hcl, if_pos hlev, hv, if_pos hleaf]

theorem populateTree_miss_node {nums : List (List Int)} {level index : Nat}
    {s s2 s3 : BuildState} {v : Int} {lid rid : Nat}
    (hcl : cacheLookup s.cache (level, index) = none)
    (hlev : level < nums.length)
    (hv : (nums.getD level [])[index]? = some v)
    (hleaf : ¬(level = nums.length - 1)) {fuel : Nat}
    (h2 : populateTree nums fuel (level + 1) index
      ⟨s.heap ++ [⟨v, none, none, none⟩], ((level, index), s.heap.length) :: s.cache⟩
      = some (s2, lid))
    (h3 : populateTree nums fuel (level + 1) (index + 1)
      ⟨setLeft s2.heap s.heap.length lid, s2.cache⟩ = some (s3, rid)) :
    populateTree nums (fuel + 1) level index s =
      some (⟨setRight s3.heap s.heap.length rid, s3.cache⟩, s.heap.length) := by
  rw [populateTree]
  simp only [hcl, if_pos hlev, hv, if_neg hleaf, h2, h3]

/-- Main invariant theorem for `populate_tree`: on well-formed input every
call succeeds, extends the state monotonically, leaves the subgraph of its
position completely built, and adds cache keys only at its level or below. -/
theorem populate_main {nums : List (List Int)} (hwf : WFRows nums) :
    ∀ b level index s, nums.length - level ≤ b →
      level < nums.length → index ≤ level →
      PartialOK nums s → DoneAbove nums s level →
      ∃ s' nid, populateTree nums b level index s = some (s', nid) ∧
        PartialOK nums s' ∧ Mono s s' ∧ DoneAbove nums s' level ∧
        cacheLookup s'.cache (level, index) = some nid ∧
        (∀ k : Nat × Nat, (cacheLookup s'.cache k).isSome →
          (cacheLookup s.cache k).isSome ∨ level ≤ k.1) := by
  intro b
  induction b with
  | zero => omega
  | succ b ih =>
    intro level index s hb hlev hind hok hda
    rcases hcl : cacheLookup s.cache (level, index) with _ | nid
    · -- cache miss: a fresh node is allocated
      have hrowlen : (nums.getD level []).length = level + 1 := hwf.2 level hlev
      have hidx : index < (nums.getD level []).length := by omega
      obtain ⟨v, hv⟩ : ∃ v, (nums.getD level [])[index]? = some v :=
        ⟨_, List.getElem?_eq_getElem hidx⟩
      have hfresh : (level, index) ∉ s.cache.map Prod.fst :=
        fst_not_mem_of_cacheLookup_none hcl
      set vNode : NumNode := ⟨v, none, none, none⟩ with hvNode
      set nid := s.heap.length with hnid
      set s1 : BuildState :=
        ⟨s.heap ++ [vNode], ((level, index), nid) :: s.cache⟩ with hs1
      have hlen1 : s1.heap.length = s.heap.length + 1 := by simp [hs1]
      have hlook1 : cacheLookup s1.cache (level, index) = some nid := by
        rw [hs1, cacheLookup_cons, if_pos rfl]
      have hnid_s1 : s1.heap[nid]? = some vNode := List.getElem?_concat_length _ _
      have hm1 : Mono s s1 := by
        refine ⟨?_, by omega, fun j hj => List.getElem?_append_left hj⟩
        intro k w hk
        have hkk : (level, index) ≠ k := by
          intro h
          rw [← h] at hk
          rw [hcl] at hk
          exact Option.noConfusion hk
        rw [hs1, cacheLookup_cons, if_neg hkk]
        exact hk
      have hok1 : PartialOK nums s1 := by
        refine ⟨?_, ?_, ?_⟩
        · rw [hs1]
          simp only [List.map_cons, hlen1]
          rw [hok.1]
          simp [List.range_succ]
        · rw [hs1]
          simp only [List.map_cons, List.nodup_cons]
          exact ⟨hfresh, hok.2.1⟩
        · intro l i id hl
          rw [hs1, cacheLookup_cons] at hl
          by_cases hk : (level, index) = (l, i)
          · rw [if_pos hk] at hl
            have h1 : level = l := congrArg Prod.fst hk
            have h2 : index = i := congrArg Prod.snd hk
            have h3 : nid = id := Option.some.inj hl
            subst h1; subst h2; subst h3
            exact ⟨hlev, hind, vNode, hnid_s1, (valAt_eq hv).symm, rfl⟩
          · rw [if_neg hk] at hl
            obtain ⟨h1, h2, n, hn, hval, hcs⟩ := hok.2.2 l i id hl
            have hid : id < s.heap.length := id_lt_heap_of_lookup hok hl
            refine ⟨h1, h2, n, ?_, hval, hcs⟩
            rw [hs1]
            rw [List.getElem?_append_left hid]
            exact hn
      have hda1 : DoneAbove nums s1 (level + 1) := by
        intro l i hli hsome
        have hkey : (level, index) ≠ (l, i) := by
          intro h
          have h1 : level = l := congrArg Prod.fst h
          omega
        rw [hs1, cacheLookup_cons, if_neg hkey] at hsome
        exact Done_mono hok hm1 (hda l i (by omega) hsome)
      by_cases hleaf : level = nums.length - 1
      · -- last row: leaf node, no recursion
        refine ⟨s1, nid, populateTree_miss_leaf hcl hlev hv hleaf b, hok1, hm1, ?_, hlook1, ?_⟩
        · intro l i hli hsome
          by_cases hk : (level, index) = (l, i)
          · have h1 : level = l := congrArg Prod.fst hk
            have h2 : index = i := congrArg Prod.snd hk
            subst h1; subst h2
            rw [Done]
            refine ⟨nid, vNode, hlook1, hnid_s1, (valAt_eq hv).symm, rfl, ?_⟩
            rw [dif_neg (by omega)]
            exact ⟨rfl, rfl⟩
          · rw [hs1, cacheLookup_cons, if_neg hk] at hsome
            exact Done_mono hok hm1 (hda l i hli hsome)
        · intro k hk
          rw [hs1, cacheLookup_cons] at hk
          by_cases hkk : (level, index) = k
          · right
            rw [← hkk]
          · rw [if_neg hkk] at hk
            exact Or.inl hk
      · -- interior node: recurse on both children
        have hlev1 : level + 1 < nums.length := by omega
        obtain ⟨s2, lid, heval2, hok2, hm2, hda2, hlook2, hnew2⟩ :=
          ih (level + 1) index s1 (by omega) hlev1 (by omega) hok1 hda1
        have hnid_lt_s1 : nid < s1.heap.length := by omega
        have hnid_s2 : s2.heap[nid]? = some vNode := by
          rw [hm2.2.2 nid hnid_lt_s1]
          exact hnid_s1
        set s2' : BuildState := ⟨setLeft s2.heap nid lid, s2.cache⟩ with hs2'
        have hok2' : PartialOK nums s2' := PartialOK_setLeft hok2 nid lid
        have hlookup_nid_s2 : cacheLookup s2.cache (level, index) = some nid :=
          hm2.1 _ _ hlook1
        have hda2' : DoneAbove nums s2' (level + 1) := by
          intro l i hli hsome
          exact Done_update_other' hok2 hlookup_nid_s2 (rfl : s2'.cache = s2.cache)
            (fun j hj => setLeft_get_ne _ _ _ _ hj) (Or.inl (by omega))
            (hda2 l i hli hsome)
        obtain ⟨s3, rid, heval3, hok3, hm3, hda3, hlook3, hnew3⟩ :=
          ih (level + 1) (index + 1) s2' (by omega) hlev1 (by omega) hok2' hda2'
        set s3' : BuildState := ⟨setRight s3.heap nid rid, s3.cache⟩ with hs3'
        have hnid_s2'_node : s2'.heap[nid]? = some ⟨v, some lid, none, none⟩ :=
          setLeft_get_self hnid_s2 lid
        have hnid_lt_s2' : nid < s2'.heap.length := by
          rw [hs2']
          simp only [setLeft_length]
          have := hm2.2.1
          omega
        have hnid_s3_node : s3.heap[nid]? = some ⟨v, some lid, none, none⟩ := by
          rw [hm3.2.2 nid hnid_lt_s2']
          exact hnid_s2'_node
        have hnid_s3' : s3'.heap[nid]? = some ⟨v, some lid, some rid, none⟩ :=
          setRight_get_self hnid_s3_node rid
        have hlookup_nid_s3 : cacheLookup s3.cache (level, index) = some nid :=
          hm3.1 _ _ hlookup_nid_s2
        have hlook_final : cacheLookup s3'.cache (level, index) = some nid := hlookup_nid_s3
        have push3 : ∀ l i, level < l → Done nums s3 l i → Done nums s3' l i :=
          fun l i hl hd =>
            Done_update_other' hok3 hlookup_nid_s3 (rfl : s3'.cache = s3.cache)
              (fun j hj => setRight_get_ne _ _ _ _ hj) (Or.inl hl) hd
        have push2 : ∀ l i, level < l → Done nums s2 l i → Done nums s3' l i :=
          fun l i hl hd =>
            push3 l i hl (Done_mono hok2' hm3
              (Done_update_other' hok2 hlookup_nid_s2 (rfl : s2'.cache = s2.cache)
                (fun j hj => setLeft_get_ne _ _ _ _ hj) (Or.inl hl) hd))
        have pushS : ∀ l i, level ≤ l → (level, index) ≠ (l, i) →
            Done nums s l i → Done nums s3' l i := by
          intro l i hl hne hd
          have hne' : level < l ∨ (level = l ∧ index ≠ i) := by
            by_cases h : level = l
            · exact Or.inr ⟨h, fun hi => hne (by rw [h, hi])⟩
            · exact Or.inl (by omega)
          have d2 : Done nums s2 l i := Done_mono hok1 hm2 (Done_mono hok hm1 hd)
          have d2' : Done nums s2' l i :=
            Done_update_other' hok2 hlookup_nid_s2 (rfl : s2'.cache = s2.cache)
              (fun j hj => setLeft_get_ne _ _ _ _ hj) hne' d2
          have d3 : Done nums s3 l i := Done_mono hok2' hm3 d2'
          exact Done_update_other' hok3 hlookup_nid_s3 (rfl : s3'.cache = s3.cache)
            (fun j hj => setRight_get_ne _ _ _ _ hj) hne' d3
        have hdone_parent : Done nums s3' level index := by
          rw [Done]
          refine ⟨nid, ⟨v, some lid, some rid, none⟩, hlook_final, hnid_s3',
            (valAt_eq hv).symm, rfl, ?_⟩
          rw [dif_pos hlev1]
          refine ⟨⟨lid, hm3.1 _ _ hlook2, rfl⟩, ⟨rid, hlook3, rfl⟩, ?_, ?_⟩
          · exact push2 _ _ (by omega)
              (hda2 (level + 1) index (le_refl _) (by rw [hlook2]; rfl))
          · exact push3 _ _ (by omega)
              (hda3 (level + 1) (index + 1) (le_refl _) (by rw [hlook3]; rfl))
        have hdaF : DoneAbove nums s3' level := by
          intro l i hli hsome
          by_cases hk : (level, index) = (l, i)
          · have h1 : level = l := congrArg Prod.fst hk
            have h2 : index = i := congrArg Prod.snd hk
            subst h1; subst h2
            exact hdone_parent
          · have hsome3 : (cacheLookup s3.cache (l, i)).isSome = true := hsome
            rcases hnew3 (l, i) hsome3 with h2some | habove
            · rcases hnew2 (l, i) h2some with h1some | habove2
              · rw [hs1, cacheLookup_cons, if_neg hk] at h1some
                exact pushS l i hli hk (hda l i hli h1some)
              · exact push2 l i (by exact habove2) (hda2 l i habove2 h2some)
            · exact push3 l i (by exact habove) (hda3 l i habove hsome3)
        have hnewF : ∀ k : Nat × Nat, (cacheLookup s3'.cache k).isSome →
            (cacheLookup s.cache k).isSome ∨ level ≤ k.1 := by
          intro k hk
          rcases hnew3 k hk with h2 | h
          · rcases hnew2 k h2 with h1 | h
            · rw [hs1, cacheLookup_cons] at h1
              by_cases hkk : (level, index) = k
              · right
                rw [← hkk]
              · rw [if_neg hkk] at h1
                exact Or.inl h1
            · right; omega
          · right; omega
        have hmF : Mono s s3' := by
          refine ⟨?_, ?_, ?_⟩
          · intro k w hkw
            exact hm3.1 k w (hm2.1 k w (hm1.1 k w hkw))
          · have e1 : s2'.heap.length = s2.heap.length := setLeft_length _ _ _
            have e2 : s3'.heap.length = s3.heap.length := setRight_length _ _ _
            have := hm1.2.1
            have := hm2.2.1
            have := hm3.2.1
            omega
          · intro j hj
            have hjnid : j ≠ nid := by omega
            have hj2' : j < s2'.heap.length := by
              have e1 : s2'.heap.length = s2.heap.length := setLeft_length _ _ _
              have := hm1.2.1
              have := hm2.2.1
              omega
            calc s3'.heap[j]? = s3.heap[j]? := setRight_get_ne _ _ _ _ hjnid
              _ = s2'.heap[j]? := hm3.2.2 j hj2'
              _ = s2.heap[j]? := setLeft_get_ne _ _ _ _ hjnid
              _ = s1.heap[j]? := hm2.2.2 j (by omega)
              _ = s.heap[j]? := hm1.2.2 j hj
        exact ⟨s3', nid,
          populateTree_miss_node hcl hlev hv hleaf heval2 heval3,
          PartialOK_setRight hok3 nid rid, hmF, hdaF, hlook_final, hnewF⟩
    · -- cache hit: the node was already built
      exact ⟨s, nid, populateTree_hit hcl b, hok, Mono_refl s, hda, hcl,
        fun k hk => Or.inl hk⟩

/-- Every triangle position is reachable from a completely built root. -/
theorem Done_all {nums : List (List Int)} {s : BuildState}
    (hd : Done nums s 0 0) :
    ∀ l i, l < nums.length → i ≤ l → Done nums s l i := by
  intro l
  induction l with
  | zero =>
    intro i _ hi
    have : i = 0 := by omega
    subst this
    exact hd
  | succ l ihl =>
    intro i hl hi
    by_cases hil : i ≤ l
    · have hdl : Done nums s l i := ihl i (by omega) hil
      rw [Done] at hdl
      obtain ⟨id, n, _, _, _, _, hrest⟩ := hdl
      rw [dif_pos (by omega)] at hrest
      exact hrest.2.2.1
    · have hieq : i = l + 1 := by omega
      subst hieq
      have hdl : Done nums s l l := ihl l (by omega) (le_refl _)
      rw [Done] at hdl
      obtain ⟨id, n, _, _, _, _, hrest⟩ := hdl
      rw [dif_pos (by omega)] at hrest
      exact hrest.2.2.2

/-- After a full build the arena has at least one node per row, so the arena
size is a sufficient recursion-depth bound for `find_max`. -/
theorem heap_ge_levels {nums : List (List Int)} {s : BuildState}
    (hok : PartialOK nums s) (hd : Done nums s 0 0) :
    nums.length ≤ s.heap.length := by
  have hids : ∀ l, l < nums.length → ∃ id, cacheLookup s.cache (l, 0) = some id := by
    intro l hl
    have hdl : Done nums s l 0 := Done_all hd l 0 hl (Nat.zero_le _)
    rw [Done] at hdl
    obtain ⟨id, n, hlook, _⟩ := hdl
    exact ⟨id, hlook⟩
  have hcard : (Finset.range nums.length).card ≤ (Finset.range s.heap.length).card := by
    apply Finset.card_le_card_of_injOn (fun l => (cacheLookup s.cache (l, 0)).getD 0)
    · intro l hl
      simp only [Finset.mem_range] at hl ⊢
      obtain ⟨id, hid⟩ := hids l hl
      rw [hid]
      exact id_lt_heap_of_lookup hok hid
    · intro l1 h1 l2 h2 heq
      simp only [Finset.coe_range, Set.mem_Iio] at h1 h2
      obtain ⟨id1, hid1⟩ := hids l1 h1
      obtain ⟨id2, hid2⟩ := hids l2 h2
      simp only [hid1, hid2, Option.getD_some] at heq
      subst heq
      have := cacheLookup_inj (ids_nodup hok) hid1 hid2
      exact congrArg Prod.fst this
  simpa using hcard

/-! ### Invariants of the summation phase -/

/-- Cache facts carried as ghost state into the `find_max` phase: distinct
positions have distinct node ids, and cached levels are in range. -/
def GoodCache (nums : List (List Int)) (c : List ((Nat × Nat) × Nat)) : Prop :=
  (∀ k1 k2 : Nat × Nat, ∀ id, cacheLookup c k1 = some id →
    cacheLookup c k2 = some id → k1 = k2) ∧
  (∀ l i id, cacheLookup c (l, i) = some id → l < nums.length)

/-- The arena is shaped like the triangle (via the ghost cache `c`), and every
sum cache is either empty or already correct.  This is the invariant that
`find_max` preserves while mutating `cached_sum` fields. -/
def Shaped (nums : List (List Int)) (c : List ((Nat × Nat) × Nat))
    (heap : List NumNode) : Prop :=
  ∀ l i id, cacheLookup c (l, i) = some id →
    ∃ n, heap[id]? = some n ∧ n.value = valAt nums l i ∧
      (n.cached_sum = none ∨ n.cached_sum = some (trueVal nums l i)) ∧
      (if l + 1 < nums.length then
        (∃ lid, cacheLookup c (l + 1, i) = some lid ∧ n.left = some lid) ∧
        (∃ rid, cacheLookup c (l + 1, i + 1) = some rid ∧ n.right = some rid)
      else n.left = none ∧ n.right = none)

theorem GoodCache_of_build {nums : List (List Int)} {s : BuildState}
    (hok : PartialOK nums s) : GoodCache nums s.cache :=
  ⟨fun _ _ _ h1 h2 => cacheLookup_inj (ids_nodup hok) h1 h2,
   fun l i id h => (hok.2.2 l i id h).1⟩

theorem Shaped_of_build {nums : List (List Int)} {s : BuildState}
    (hda : DoneAbove nums s 0) : Shaped nums s.cache s.heap := by
  intro l i id hl
  have hd : Done nums s l i := hda l i (Nat.zero_le _) (by rw [hl]; rfl)
  rw [Done] at hd
  obtain ⟨id2, n, hl2, hget, hv, hcs, hrest⟩ := hd
  rw [hl] at hl2
  have : id2 = id := (Option.some.inj hl2).symm
  subst this
  refine ⟨n, hget, hv, Or.inl hcs, ?_⟩
  by_cases h : l + 1 < nums.length
  · rw [dif_pos h] at hrest
    rw [if_pos h]
    exact ⟨hrest.1, hrest.2.1⟩
  · rw [dif_neg h] at hrest
    rw [if_neg h]
    exact hrest

/-- Heap evolution during `find_max`: only `cached_sum` fields may change. -/
def FrameEq (h h' : List NumNode) : Prop :=
  h'.length = h.length ∧
  ∀ (j : Nat) (n : NumNode), h[j]? = some n → ∃ n', h'[j]? = some n' ∧
    n'.value = n.value ∧ n'.left = n.left ∧ n'.right = n.right

theorem FrameEq_refl (h : List NumNode) : FrameEq h h :=
  ⟨rfl, fun _ n hn => ⟨n, hn, rfl, rfl, rfl⟩⟩

theorem FrameEq_trans {h1 h2 h3 : List NumNode} (a : FrameEq h1 h2) (b : FrameEq h2 h3) :
    FrameEq h1 h3 := by
  refine ⟨b.1.trans a.1, fun j n hn => ?_⟩
  obtain ⟨n', hn', e1, e2, e3⟩ := a.2 j n hn
  obtain ⟨n'', hn'', f1, f2, f3⟩ := b.2 j n' hn'
  exact ⟨n'', hn'', f1.trans e1, f2.trans e2, f3.trans e3⟩

theorem FrameEq_set_cached {h : List NumNode} {nid : Nat} {n2 : NumNode}
    (hget : h[nid]? = some n2) (x : Option Int) :
    FrameEq h (h.set nid { n2 with cached_sum := x }) := by
  have hlt : nid < h.length := by
    rcases List.getElem?_eq_some_iff.mp hget with ⟨h1, _⟩
    exact h1
  refine ⟨by simp, fun j n hn => ?_⟩
  by_cases hj : j = nid
  · subst hj
    rw [hget] at hn
    have : n2 = n := Option.some.inj hn
    subst this
    exact ⟨{ n2 with cached_sum := x }, by simp [List.getElem?_set_self, hlt], rfl, rfl, rfl⟩
  · exact ⟨n, by rw [List.getElem?_set_ne (Ne.symm hj)]; exact hn, rfl, rfl, rfl⟩

/-! ### Evaluation equations for `find_max` -/

theorem find_max_none (heap : List NumNode) (fuel : Nat) :
    find_max heap fuel none = some (heap, 0) := by
  cases fuel <;> rfl

theorem find_max_zero (heap : List NumNode) (nid : Nat) :
    find_max heap 0 (some nid) = none := rfl

theorem find_max_cached {heap : List NumNode} {nid : Nat} {n : NumNode} {c : Int}
    (hget : heap[nid]? = some n) (hc : n.cached_sum = some c) (fuel : Nat) :
    find_max heap (fuel + 1) (some nid) = some (heap, c) := by
  rw [find_max]
  simp only [hget, hc]

theorem find_max_step {heap h1 h2 : List NumNode} {fuel nid : Nat}
    {n n1 n2 : NumNode} {lsum rsum : Int}
    (hget : heap[nid]? = some n) (hc : n.cached_sum = none)
    (hl : find_max heap fuel n.left = some (h1, lsum))
    (hn1 : h1[nid]? = some n1)
    (hr : find_max h1 fuel n1.right = some (h2, rsum))
    (hn2 : h2[nid]? = some n2) :
    find_max heap (fuel + 1) (some nid) =
      some (h2.set nid { n2 with cached_sum := some (n.value + max lsum rsum) },
        n.value + max lsum rsum) := by
  rw [find_max]
  simp only [hget, hc, hl, hn1, hr, hn2]

/-- `find_max` only ever mutates `cached_sum` fields of the arena. -/
theorem find_max_frame : ∀ (fuel : Nat) (heap : List NumNode) (onid : Option Nat)
    (h' : List NumNode) (v : Int),
    find_max heap fuel onid = some (h', v) → FrameEq heap h' := by
  intro fuel
  induction fuel with
  | zero =>
    intro heap onid h' v heq
    cases onid with
    | none =>
      rw [find_max_none] at heq
      simp only [Option.some.injEq, Prod.mk.injEq] at heq
      obtain ⟨rfl, rfl⟩ := heq
      exact FrameEq_refl _
    | some nid =>
      rw [find_max_zero] at heq
      exact Option.noConfusion heq
  | succ f ih =>
    intro heap onid h' v heq
    cases onid with
    | none =>
      rw [find_max_none] at heq
      simp only [Option.some.injEq, Prod.mk.injEq] at heq
      obtain ⟨rfl, rfl⟩ := heq
      exact FrameEq_refl _
    | some nid =>
      rw [find_max] at heq
      rcases hget : heap[nid]? with _ | n
      · simp only [hget] at heq
        exact Option.noConfusion heq
      · simp only [hget] at heq
        rcases hcs : n.cached_sum with _ | c
        · simp only [hcs] at heq
          rcases hfl : find_max heap f n.left with _ | p1
          · simp only [hfl] at heq
            exact Option.noConfusion heq
          · obtain ⟨h1, lsum⟩ := p1
            simp only [hfl] at heq
            rcases hn1 : h1[nid]? with _ | n1
            · simp only [hn1] at heq
              exact Option.noConfusion heq
            · simp only [hn1] at heq
              rcases hfr : find_max h1 f n1.right with _ | p2
              · simp only [hfr] at heq
                exact Option.noConfusion heq
              · obtain ⟨h2, rsum⟩ := p2
                simp only [hfr] at heq
                rcases hn2 : h2[nid]? with _ | n2
                · simp only [hn2] at heq
                  exact Option.noConfusion heq
                · simp only [hn2, Option.some.injEq, Prod.mk.injEq] at heq
                  obtain ⟨rfl, rfl⟩ := heq
                  exact FrameEq_trans (FrameEq_trans (ih heap n.left h1 lsum hfl)
                    (ih h1 n1.right h2 rsum hfr)) (FrameEq_set_cached hn2 _)
        · simp only [hcs, Option.some.injEq, Prod.mk.injEq] at heq
          obtain ⟨rfl, rfl⟩ := heq
          exact FrameEq_refl _

/-- Memoization correctness of `find_max`: on a shaped arena with enough fuel
it returns the true maximum downward sum of its position, keeps the arena
shaped (all caches it writes are correct), and only touches `cached_sum`. -/
theorem find_max_correct {nums : List (List Int)} {c : List ((Nat × Nat) × Nat)}
    (hgc : GoodCache nums c) :
    ∀ (fuel : Nat) (heap : List NumNode) (l i id : Nat),
      Shaped nums c heap → cacheLookup c (l, i) = some id →
      nums.length - l ≤ fuel →
      ∃ heap', find_max heap fuel (some id) = some (heap', trueVal nums l i) ∧
        Shaped nums c heap' ∧ FrameEq heap heap' := by
  intro fuel
  induction fuel with
  | zero =>
    intro heap l i id _ hl hfuel
    have := hgc.2 l i id hl
    omega
  | succ f ih =>
    intro heap l i id hsh hl _
    have hllen : l < nums.length := hgc.2 l i id hl
    obtain ⟨n, hget, hval, hcache, hchild⟩ := hsh l i id hl
    rcases hcache with hnone | hsome
    · by_cases hlt : l + 1 < nums.length
      · -- interior node: recurse into both children
        rw [if_pos hlt] at hchild
        obtain ⟨⟨lid, hclid, hnl⟩, ⟨rid, hcrid, hnr⟩⟩ := hchild
        obtain ⟨h1, heq1, hsh1, hfr1⟩ := ih heap (l + 1) i lid hsh hclid (by omega)
        obtain ⟨n1, hn1, hv1, hl1, hr1⟩ := hfr1.2 id n hget
        obtain ⟨h2, heq2, hsh2, hfr2⟩ := ih h1 (l + 1) (i + 1) rid hsh1 hcrid (by omega)
        obtain ⟨n2, hn2, hv2, hl2, hr2⟩ := hfr2.2 id n1 hn1
        have htv : trueVal nums l i =
            n.value + max (trueVal nums (l + 1) i) (trueVal nums (l + 1) (i + 1)) := by
          rw [trueVal, if_pos hlt, hval]
        have heval : find_max heap (f + 1) (some id) =
            some (h2.set id { n2 with cached_sum := some (trueVal nums l i) },
              trueVal nums l i) := by
          rw [htv]
          refine find_max_step hget hnone ?_ hn1 ?_ hn2
          · rw [hnl]
            exact heq1
          · rw [hr1, hnr]
            exact heq2
        refine ⟨h2.set id { n2 with cached_sum := some (trueVal nums l i) },
          heval, ?_, FrameEq_trans (FrameEq_trans hfr1 hfr2) (FrameEq_set_cached hn2 _)⟩
        intro l2 i2 id2 hl2c
        by_cases hid : id2 = id
        · subst hid
          have hkeys : (l2, i2) = (l, i) := hgc.1 _ _ _ hl2c hl
          have e1 : l2 = l := congrArg Prod.fst hkeys
          have e2 : i2 = i := congrArg Prod.snd hkeys
          subst e1
          subst e2
          have hlt2 : id2 < h2.length := (List.getElem?_eq_some_iff.mp hn2).1
          refine ⟨{ n2 with cached_sum := some (trueVal nums l2 i2) },
            by simp [List.getElem?_set_self, hlt2], ?_, Or.inr rfl, ?_⟩
          · show n2.value = valAt nums l2 i2
            rw [hv2, hv1, hval]
          · rw [if_pos hlt]
            refine ⟨⟨lid, hclid, ?_⟩, ⟨rid, hcrid, ?_⟩⟩
            · show n2.left = some lid
              rw [hl2, hl1, hnl]
            · show n2.right = some rid
              rw [hr2, hr1, hnr]
        · obtain ⟨m, hm, hmv, hmc, hmch⟩ := hsh2 l2 i2 id2 hl2c
          exact ⟨m, by rw [List.getElem?_set_ne (Ne.symm hid)]; exact hm, hmv, hmc, hmch⟩
      · -- node in the last row: both children are absent
        rw [if_neg hlt] at hchild
        obtain ⟨hln, hrn⟩ := hchild
        have htv : trueVal nums l i = n.value + max 0 0 := by
          rw [trueVal, if_neg hlt, hval]
          simp
        have heval : find_max heap (f + 1) (some id) =
            some (heap.set id { n with cached_sum := some (trueVal nums l i) },
              trueVal nums l i) := by
          rw [htv]
          refine find_max_step hget hnone ?_ hget ?_ hget
          · rw [hln]
            exact find_max_none heap f
          · rw [hrn]
            exact find_max_none heap f
        refine ⟨heap.set id { n with cached_sum := some (trueVal nums l i) },
          heval, ?_, FrameEq_set_cached hget _⟩
        intro l2 i2 id2 hl2c
        by_cases hid : id2 = id
        · subst hid
          have hkeys : (l2, i2) = (l, i) := hgc.1 _ _ _ hl2c hl
          have e1 : l2 = l := congrArg Prod.fst hkeys
          have e2 : i2 = i := congrArg Prod.snd hkeys
          subst e1
          subst e2
          have hlt2 : id2 < heap.length := (List.getElem?_eq_some_iff.mp hget).1
          refine ⟨{ n with cached_sum := some (trueVal nums l2 i2) },
            by simp [List.getElem?_set_self, hlt2], hval, Or.inr rfl, ?_⟩
          rw [if_neg hlt]
          exact ⟨hln, hrn⟩
        · obtain ⟨m, hm, hmv, hmc, hmch⟩ := hsh l2 i2 id2 hl2c
          exact ⟨m, by rw [List.getElem?_set_ne (Ne.symm hid)]; exact hm, hmv, hmc, hmch⟩
    · exact ⟨heap, find_max_cached hget hsome f, hsh, FrameEq_refl heap⟩

/-- The initial build state satisfies the invariants. -/
theorem PartialOK_init (nums : List (List Int)) : PartialOK nums ⟨[], []⟩ := by
  refine ⟨rfl, List.nodup_nil, ?_⟩
  intro l i id h
  simp [cacheLookup] at h

theorem DoneAbove_init (nums : List (List Int)) (L : Nat) : DoneAbove nums ⟨[], []⟩ L := by
  intro l i _ hsome
  simp [cacheLookup] at hsome

/-- Full-build consequence of `populate_main` for the root call. -/
theorem build_full {rows : List (List Int)} (hwf : WFRows rows) :
    ∃ s nid, populateTree rows rows.length 0 0 ⟨[], []⟩ = some (s, nid) ∧
      PartialOK rows s ∧ DoneAbove rows s 0 ∧
      cacheLookup s.cache (0, 0) = some nid := by
  have hpos : 0 < rows.length := by
    rcases rows with _ | ⟨r, rest⟩
    · exact absurd rfl hwf.1
    · simp
  obtain ⟨s, nid, heval, hok, _, hda, hlook, _⟩ :=
    populate_main hwf rows.length 0 0 ⟨[], []⟩ (by omega) hpos (le_refl 0)
      (PartialOK_init rows) (DoneAbove_init rows 0)
  exact ⟨s, nid, heval, hok, hda, hlook⟩

/-- `create_num_tree` on well-formed input, with the final build state. -/
theorem create_num_tree_eq {rows : List (List Int)} (hwf : WFRows rows) :
    ∃ s nid, populateTree rows rows.length 0 0 ⟨[], []⟩ = some (s, nid) ∧
      create_num_tree rows = .ok ⟨s.heap, nid⟩ ∧
      PartialOK rows s ∧ DoneAbove rows s 0 ∧
      cacheLookup s.cache (0, 0) = some nid := by
  obtain ⟨s, nid, heval, hok, hda, hlook⟩ := build_full hwf
  refine ⟨s, nid, heval, ?_, hok, hda, hlook⟩
  have hpos : rows.length ≠ 0 := by
    rcases rows with _ | ⟨r, rest⟩
    · exact absurd rfl hwf.1
    · simp
  rw [create_num_tree, if_neg hpos]
  simp only [heval]

/-- On a tree built from well-formed rows, `find_max_sum` succeeds and returns
the true maximum downward sum from the root position. -/
theorem find_max_sum_correct {rows : List (List Int)} (hwf : WFRows rows)
    {t : NumTree} (ht : create_num_tree rows = .ok t) :
    ∃ t', find_max_sum t = some (t', trueVal rows 0 0) := by
  obtain ⟨s, nid, _, hcreate, hok, hda, hlook⟩ := create_num_tree_eq hwf
  rw [ht] at hcreate
  have hteq : t = ⟨s.heap, nid⟩ := Except.ok.inj hcreate
  subst hteq
  have hd00 : Done rows s 0 0 := hda 0 0 (le_refl 0) (by rw [hlook]; rfl)
  have hge : rows.length ≤ s.heap.length := heap_ge_levels hok hd00
  obtain ⟨heap', heq, _, _⟩ :=
    find_max_correct (GoodCache_of_build hok) s.heap.length s.heap 0 0 nid
      (Shaped_of_build hda) hlook (by omega)
  refine ⟨⟨heap', nid⟩, ?_⟩
  rw [find_max_sum]
  simp only [heq]

/-! ### Brute-force path enumeration (specification side of C1) -/

/-- All downward choice sequences of length `m` (`false` = left child,
`true` = right child). -/
def allBools : Nat → List (List Bool)
  | 0 => [[]]
  | m + 1 => (allBools m).map (List.cons false) ++ (allBools m).map (List.cons true)

/-- Sum of the numbers along the root-to-leaf path that starts at position
`(l, i)` and takes the given child choices. -/
def pathSum (nums : List (List Int)) : Nat → Nat → List Bool → Int
  | l, i, [] => valAt nums l i
  | l, i, b :: bs => valAt nums l i + pathSum nums (l + 1) (if b then i + 1 else i) bs

/-- Maximum of a list of integers, `none` on the empty list. -/
def listMax : List Int → Option Int
  | [] => none
  | x :: xs =>
    match listMax xs with
    | none => some x
    | some m => some (max x m)

/-- Maximum over options, treating `none` as an identity. -/
def omax : Option Int → Option Int → Option Int
  | none, b => b
  | a, none => a
  | some a, some b => some (max a b)

/-- The maximum root-to-leaf path sum of the triangle, by brute-force
enumeration of all `2 ^ (#rows - 1)` choice sequences. -/
def maxPathSum (rows : List (List Int)) : Option Int :=
  listMax ((allBools (rows.length - 1)).map (pathSum rows 0 0))

theorem omax_none_left (b : Option Int) : omax none b = b := by
  cases b <;> rfl

theorem omax_none_right (a : Option Int) : omax a none = a := by
  cases a <;> rfl

theorem listMax_cons (x : Int) (xs : List Int) :
    listMax (x :: xs) = omax (some x) (listMax xs) := by
  rcases h : listMax xs with _ | m <;> simp [listMax, omax, h]

theorem omax_assoc (a b c : Option Int) :
    omax (omax a b) c = omax a (omax b c) := by
  rcases a with _ | a <;> rcases b with _ | b <;> rcases c with _ | c <;>
    simp [omax, max_assoc]

theorem listMax_append (xs ys : List Int) :
    listMax (xs ++ ys) = omax (listMax xs) (listMax ys) := by
  induction xs with
  | nil => simp [listMax, omax_none_left]
  | cons x xs ih =>
    rw [List.cons_append, listMax_cons, ih, listMax_cons, omax_assoc]

theorem listMax_map_add (c : Int) (xs : List Int) :
    listMax (xs.map (fun x => c + x)) = (listMax xs).map (fun x => c + x) := by
  induction xs with
  | nil => rfl
  | cons x xs ih =>
    rw [List.map_cons, listMax_cons, listMax_cons, ih]
    rcases h : listMax xs with _ | m <;> simp [omax, max_add_add_left]

/-- `trueVal` is the maximum over the brute-force path enumeration. -/
theorem trueVal_eq_maxPaths {nums : List (List Int)} :
    ∀ (m l i : Nat), m = nums.length - 1 - l → l < nums.length →
      listMax ((allBools m).map (pathSum nums l i)) = some (trueVal nums l i) := by
  intro m
  induction m with
  | zero =>
    intro l i hm hl
    have hlt : ¬(l + 1 < nums.length) := by omega
    rw [allBools]
    rw [trueVal, if_neg hlt]
    simp [listMax, pathSum]
  | succ m ih =>
    intro l i hm hl
    have hlt : l + 1 < nums.length := by omega
    rw [allBools, List.map_append, listMax_append]
    have hleft : ((allBools m).map (List.cons false)).map (pathSum nums l i) =
        ((allBools m).map (pathSum nums (l + 1) i)).map (fun x => valAt nums l i + x) := by
      rw [List.map_map, List.map_map]
      apply List.map_congr_left
      intro bs _
      simp [pathSum]
    have hright : ((allBools m).map (List.cons true)).map (pathSum nums l i) =
        ((allBools m).map (pathSum nums (l + 1) (i + 1))).map
          (fun x => valAt nums l i + x) := by
      rw [List.map_map, List.map_map]
      apply List.map_congr_left
      intro bs _
      simp [pathSum]
    rw [hleft, hright, listMax_map_add, listMax_map_add,
      ih (l + 1) i (by omega) (by omega), ih (l + 1) (i + 1) (by omega) (by omega)]
    have ht : trueVal nums l i =
        valAt nums l i + max (trueVal nums (l + 1) i) (trueVal nums (l + 1) (i + 1)) := by
      rw [trueVal, if_pos hlt]
    rw [ht]
    simp [omax, max_add_add_left]

/-- After a successful `find_max` on a node, that node's `cached_sum` holds
the returned value in the resulting arena. -/
theorem find_max_caches_root :
    ∀ (fuel : Nat) (heap h' : List NumNode) (nid : Nat) (v : Int),
      find_max heap fuel (some nid) = some (h', v) →
      ∃ n', h'[nid]? = some n' ∧ n'.cached_sum = some v := by
  intro fuel heap h' nid v heq
  cases fuel with
  | zero =>
    rw [find_max_zero] at heq
    exact Option.noConfusion heq
  | succ f =>
    rw [find_max] at heq
    rcases hget : heap[nid]? with _ | n
    · simp only [hget] at heq
      exact Option.noConfusion heq
    · simp only [hget] at heq
      rcases hcs : n.cached_sum with _ | c
      · simp only [hcs] at heq
        rcases hfl : find_max heap f n.left with _ | p1
        · simp only [hfl] at heq
          exact Option.noConfusion heq
        · obtain ⟨h1, lsum⟩ := p1
          simp only [hfl] at heq
          rcases hn1 : h1[nid]? with _ | n1
          · simp only [hn1] at heq
            exact Option.noConfusion heq
          · simp only [hn1] at heq
            rcases hfr : find_max h1 f n1.right with _ | p2
            · simp only [hfr] at heq
              exact Option.noConfusion heq
            · obtain ⟨h2, rsum⟩ := p2
              simp only [hfr] at heq
              rcases hn2 : h2[nid]? with _ | n2
              · simp only [hn2] at heq
                exact Option.noConfusion heq
              · simp only [hn2, Option.some.injEq, Prod.mk.injEq] at heq
                obtain ⟨rfl, rfl⟩ := heq
                have hlt2 : nid < h2.length := (List.getElem?_eq_some_iff.mp hn2).1
                exact ⟨{ n2 with cached_sum := some (n.value + max lsum rsum) },
                  by simp [List.getElem?_set_self, hlt2], rfl⟩
      · simp only [hcs, Option.some.injEq, Prod.mk.injEq] at heq
        obtain ⟨rfl, rfl⟩ := heq
        exact ⟨n, hget, hcs⟩

/-! ### Claim theorems for the triangle module -/

/-- C1: for every well-formed triangular row sequence,
`find_max_sum (create_num_tree rows)` equals the maximum over all
root-to-leaf paths of the sum of node values along the path (brute-force
enumeration `maxPathSum`); in particular for
`[[5], [9, 6], [4, 6, 8], [0, 7, 1, 5]]` the result is 27, and for a
single-row input it is that row's single value. -/
theorem c1_find_max_sum_is_max_path_sum :
    (∀ (rows : List (List Int)) (t : NumTree), WFRows rows →
      create_num_tree rows = Except.ok t →
      ∃ v t', find_max_sum t = some (t', v) ∧ maxPathSum rows = some v) ∧
    (∀ t : NumTree,
      create_num_tree [[5], [9, 6], [4, 6, 8], [0, 7, 1, 5]] = Except.ok t →
      ∃ t', find_max_sum t = some (t', 27)) ∧
    (∀ (x : Int) (t : NumTree), create_num_tree [[x]] = Except.ok t →
      ∃ t', find_max_sum t = some (t', x)) := by
  have hmain : ∀ (rows : List (List Int)) (t : NumTree), WFRows rows →
      create_num_tree rows = Except.ok t →
      ∃ v t', find_max_sum t = some (t', v) ∧ maxPathSum rows = some v := by
    intro rows t hwf ht
    obtain ⟨t', heq⟩ := find_max_sum_correct hwf ht
    have hpos : 0 < rows.length := by
      rcases rows with _ | ⟨r, rest⟩
      · exact absurd rfl hwf.1
      · simp
    refine ⟨trueVal rows 0 0, t', heq, ?_⟩
    exact trueVal_eq_maxPaths (rows.length - 1) 0 0 (by omega) hpos
  refine ⟨hmain, ?_, ?_⟩
  · intro t ht
    obtain ⟨v, t', h1, h2⟩ := hmain _ t (by decide) ht
    have hv : maxPathSum [[5], [9, 6], [4, 6, 8], [0, 7, 1, 5]] = some 27 := by decide
    rw [hv] at h2
    have hv27 : v = 27 := (Option.some.inj h2).symm
    subst hv27
    exact ⟨t', h1⟩
  · intro x t ht
    have hwf : WFRows [[x]] := by
      refine ⟨by simp, ?_⟩
      intro l hl
      simp only [List.length_singleton] at hl
      have hl0 : l = 0 := by omega
      subst hl0
      rfl
    obtain ⟨v, t', h1, h2⟩ := hmain _ t hwf ht
    have hv : maxPathSum [[x]] = some x := by
      unfold maxPathSum
      simp [allBools, pathSum, listMax, valAt]
    rw [hv] at h2
    have hvx : v = x := (Option.some.inj h2).symm
    subst hvx
    exact ⟨t', h1⟩

/-- Witness for C1 at the concrete example triangle. -/
theorem c1_witness :
    WFRows [[5], [9, 6], [4, 6, 8], [0, 7, 1, 5]] ∧
    ∃ t t', create_num_tree [[5], [9, 6], [4, 6, 8], [0, 7, 1, 5]] = Except.ok t ∧
      find_max_sum t = some (t', 27) := by
  have ht : create_num_tree [[5], [9, 6], [4, 6, 8], [0, 7, 1, 5]] =
      Except.ok ⟨[⟨5, some 1, some 7, none⟩, ⟨9, some 2, some 5, none⟩,
        ⟨4, some 3, some 4, none⟩, ⟨0, none, none, none⟩, ⟨7, none, none, none⟩,
        ⟨6, some 4, some 6, none⟩, ⟨1, none, none, none⟩, ⟨6, some 5, some 8, none⟩,
        ⟨8, some 6, some 9, none⟩, ⟨5, none, none, none⟩], 0⟩ := rfl
  obtain ⟨t', ht'⟩ := c1_find_max_sum_is_max_path_sum.2.1 _ ht
  exact ⟨by decide, _, t', ht, ht'⟩

/-- C8: `create_num_tree` raises the invalid-input error exactly on the empty
row sequence, and succeeds on every well-formed non-empty triangular input. -/
theorem c8_invalid_input_iff_empty :
    (∀ nums : List (List Int),
      create_num_tree nums = Except.error BuildError.invalidInput ↔ nums = []) ∧
    (∀ nums : List (List Int), WFRows nums → ∃ t, create_num_tree nums = Except.ok t) := by
  constructor
  · intro nums
    constructor
    · intro h
      by_cases h0 : nums.length = 0
      · exact List.length_eq_zero.mp h0
      · rw [create_num_tree, if_neg h0] at h
        rcases hp : populateTree nums nums.length 0 0 ⟨[], []⟩ with _ | p
        · simp only [hp] at h
          exact absurd (Except.error.inj h) (by simp)
        · obtain ⟨s, nid⟩ := p
          simp only [hp] at h
          exact Except.noConfusion h
    · intro h
      subst h
      rfl
  · intro nums hwf
    obtain ⟨s, nid, _, hcreate, _, _, _⟩ := create_num_tree_eq hwf
    exact ⟨⟨s.heap, nid⟩, hcreate⟩

/-- Witness for C8: the empty input errors, `[[5]]` succeeds. -/
theorem c8_witness :
    create_num_tree [] = Except.error BuildError.invalidInput ∧
    (WFRows [[5]] ∧ ∃ t, create_num_tree [[5]] = Except.ok t) :=
  ⟨(c8_invalid_input_iff_empty.1 []).mpr rfl,
   by decide, c8_invalid_input_iff_empty.2 [[5]] (by decide)⟩

/-- C4: `create_num_tree` constructs exactly one node per `(level, index)`
position, so the node reached as the left child of the node at
`(level, index)` is the same arena object (same node id) as the node reached
as the right child of the node at `(level, index - 1)`: both are the node
cached for position `(level + 1, index)`. -/
theorem c4_node_sharing :
    ∀ rows : List (List Int), WFRows rows → 3 ≤ rows.length →
    ∀ level index : Nat, level + 1 < rows.length → 1 ≤ index → index ≤ level →
    ∃ s nid idP nP idQ nQ cid,
      populateTree rows rows.length 0 0 ⟨[], []⟩ = some (s, nid) ∧
      create_num_tree rows = Except.ok ⟨s.heap, nid⟩ ∧
      cacheLookup s.cache (level, index) = some idP ∧
      s.heap[idP]? = some nP ∧
      cacheLookup s.cache (level, index - 1) = some idQ ∧
      s.heap[idQ]? = some nQ ∧
      nP.left = some cid ∧ nQ.right = some cid ∧
      cacheLookup s.cache (level + 1, index) = some cid := by
  intro rows hwf _ level index hlev hi1 hil
  obtain ⟨s, nid, heval, hcreate, hok, hda, hlook⟩ := create_num_tree_eq hwf
  have hd00 : Done rows s 0 0 := hda 0 0 (le_refl 0) (by rw [hlook]; rfl)
  have hdP : Done rows s level index := Done_all hd00 level index (by omega) hil
  have hdQ : Done rows s level (index - 1) :=
    Done_all hd00 level (index - 1) (by omega) (by omega)
  rw [Done] at hdP hdQ
  obtain ⟨idP, nP, hlP, hgP, _, _, hrestP⟩ := hdP
  obtain ⟨idQ, nQ, hlQ, hgQ, _, _, hrestQ⟩ := hdQ
  rw [dif_pos hlev] at hrestP hrestQ
  obtain ⟨⟨lidP, hclidP, hnlP⟩, _, _, _⟩ := hrestP
  obtain ⟨_, ⟨ridQ, hcridQ, hnrQ⟩, _, _⟩ := hrestQ
  have hidx : index - 1 + 1 = index := by omega
  rw [hidx] at hcridQ
  rw [hclidP] at hcridQ
  have hlr : lidP = ridQ := Option.some.inj hcridQ
  subst hlr
  exact ⟨s, nid, idP, nP, idQ, nQ, lidP, heval, hcreate, hlP, hgP, hlQ, hgQ,
    hnlP, hnrQ, hclidP⟩

/-- Witness for C4 on the triangle `[[1], [2, 3], [4, 5, 6]]` at
`(level, index) = (1, 1)`. -/
theorem c4_witness :
    WFRows [[1], [2, 3], [4, 5, 6]] ∧
    ∃ s nid idP nP idQ nQ cid,
      populateTree [[1], [2, 3], [4, 5, 6]] 3 0 0 ⟨[], []⟩ = some (s, nid) ∧
      create_num_tree [[1], [2, 3], [4, 5, 6]] = Except.ok ⟨s.heap, nid⟩ ∧
      cacheLookup s.cache (1, 1) = some idP ∧
      s.heap[idP]? = some nP ∧
      cacheLookup s.cache (1, 0) = some idQ ∧
      s.heap[idQ]? = some nQ ∧
      nP.left = some cid ∧ nQ.right = some cid ∧
      cacheLookup s.cache (2, 1) = some cid :=
  ⟨by decide,
   c4_node_sharing [[1], [2, 3], [4, 5, 6]] (by decide) (by decide) 1 1
     (by decide) (by decide) (by decide)⟩

/-- C10: a successful `find_max_sum` leaves the tree root and every node's
`value`, `left` and `right` unchanged (only `cached_sum` fields may change),
and calling `find_max_sum` again on the mutated tree returns the same value
(and does not mutate it further). -/
theorem c10_find_max_sum_frame :
    ∀ (t t' : NumTree) (v : Int), find_max_sum t = some (t', v) →
      t'.root = t.root ∧ t'.heap.length = t.heap.length ∧
      (∀ (j : Nat) (n : NumNode), t.heap[j]? = some n →
        ∃ n', t'.heap[j]? = some n' ∧ n'.value = n.value ∧
          n'.left = n.left ∧ n'.right = n.right) ∧
      find_max_sum t' = some (t', v) := by
  intro t t' v heq
  rw [find_max_sum] at heq
  rcases hfm : find_max t.heap t.heap.length (some t.root) with _ | p
  · simp only [hfm] at heq
    exact Option.noConfusion heq
  · obtain ⟨h, v0⟩ := p
    simp only [hfm, Option.some.injEq, Prod.mk.injEq] at heq
    obtain ⟨rfl, rfl⟩ := heq
    have hfr : FrameEq t.heap h := find_max_frame _ _ _ _ _ hfm
    obtain ⟨n', hn', hcs⟩ := find_max_caches_root _ _ _ _ _ hfm
    refine ⟨rfl, hfr.1, hfr.2, ?_⟩
    have hroot_lt : t.root < h.length := (List.getElem?_eq_some_iff.mp hn').1
    rw [find_max_sum]
    rcases hlen : h.length with _ | k
    · omega
    · have hc : find_max h (k + 1) (some t.root) = some (h, v0) :=
        find_max_cached hn' hcs k
      simp only [hlen, hc]

/-- Witness for C10 on a concrete three-node tree. -/
theorem c10_witness :
    find_max_sum ⟨[⟨1, some 1, some 2, none⟩, ⟨2, none, none, none⟩,
        ⟨3, none, none, none⟩], 0⟩ =
      some (⟨[⟨1, some 1, some 2, some 4⟩, ⟨2, none, none, some 2⟩,
        ⟨3, none, none, some 3⟩], 0⟩, 4) ∧
    (⟨[⟨1, some 1, some 2, some 4⟩, ⟨2, none, none, some 2⟩,
        ⟨3, none, none, some 3⟩], 0⟩ : NumTree).root =
      (⟨[⟨1, some 1, some 2, none⟩, ⟨2, none, none, none⟩,
        ⟨3, none, none, none⟩], 0⟩ : NumTree).root ∧
    find_max_sum ⟨[⟨1, some 1, some 2, some 4⟩, ⟨2, none, none, some 2⟩,
        ⟨3, none, none, some 3⟩], 0⟩ =
      some (⟨[⟨1, some 1, some 2, some 4⟩, ⟨2, none, none, some 2⟩,
        ⟨3, none, none, some 3⟩], 0⟩, 4) := by
  have h := c10_find_max_sum_frame
    ⟨[⟨1, some 1, some 2, none⟩, ⟨2, none, none, none⟩, ⟨3, none, none, none⟩], 0⟩
    ⟨[⟨1, some 1, some 2, some 4⟩, ⟨2, none, none, some 2⟩, ⟨3, none, none, some 3⟩], 0⟩
    4 rfl
  exact ⟨rfl, h.1, h.2.2.2⟩

end TriangleSearch

namespace WifiSearch

/-- 2D point or vector, as exact rationals (modelling Python floats). -/
abbrev Pt := ℚ × ℚ

/-- Tolerance for comparing floating point numbers (`1e-5`). -/
def POINT_CMP_TOL : ℚ := 1 / 100000

/-- A building from the city map; the constructor sets
`has_confirmed_wifi = False` (see `CityBuilding.make`). -/
structure CityBuilding where
  name : String
  pts : List Pt
  has_confirmed_wifi : Bool
deriving DecidableEq, Repr

/-- `CityBuilding.__init__`. -/
def CityBuilding.make (name : String) (pts : List Pt) : CityBuilding :=
  ⟨name, pts, false⟩

/-- `is_line_segment_intersected(pt1, pt2, pt3)`: does the rightward
horizontal ray from `pt3` cross the segment from `pt1` to `pt2`? -/
def is_line_segment_intersected (pt1 pt2 pt3 : Pt) : Bool :=
  let x1 := pt1.1
  let y1 := pt1.2
  let x2 := pt2.1
  let y2 := pt2.2
  let x3 := pt3.1
  let y3 := pt3.2
  if |y1 - y2| < POINT_CMP_TOL then
    false
  else
    let t := (y3 - y1) / (-y1 + y2)
    let x_t := (1 - t) * x1 + t * x2
    if x_t < x3 then
      false
    else if |t| < POINT_CMP_TOL ∨ |1 - t| < POINT_CMP_TOL then
      let y_t := (1 - t) * y1 + t * y2
      let y_other_vertex := if t < 1 / 2 then y2 else y1
      decide (y_other_vertex < y_t ∨ |y_t - y_other_vertex| < POINT_CMP_TOL)
    else
      decide (0 < t ∧ t < 1)

/-- `is_hotspot_in_building(cb, pt)`: crossing-number containment test over
the consecutive vertex pairs `izip(cb.pts[:-1], cb.pts[1:])`. -/
def is_hotspot_in_building (cb : CityBuilding) (pt : Pt) : Bool :=
  let line_segment_crossings :=
    (cb.pts.dropLast.zip cb.pts.tail).map
      (fun ab => is_line_segment_intersected ab.1 ab.2 pt)
  (line_segment_crossings.filter (fun x => x)).length % 2 == 1

/-- `azimuth_to_vector(azi_deg)`, over `ℝ` (`radians(a) = a * π / 180`). -/
noncomputable def azimuth_to_vector (azi_deg : ℝ) : ℝ × ℝ :=
  (-Real.cos (azi_deg * (Real.pi / 180) + Real.pi / 2),
    Real.sin (azi_deg * (Real.pi / 180) + Real.pi / 2))

/-- Python float division; `none` models a raised `ZeroDivisionError`. -/
def pydiv (a b : ℚ) : Option ℚ := if b = 0 then none else some (a / b)

/-- Result of `hotspot_location`: a normal return (`ok`, with `none` standing
for Python's `None`) or an uncaught `ZeroDivisionError`. -/
inductive GeoResult where
  | ok : Option Pt → GeoResult
  | divByZero : GeoResult
deriving DecidableEq, Repr

/-- `hotspot_location(pt1, dxdy1, pt2, dxdy2)`: intersection of two radar
lines, with every division Python executes modelled by `pydiv`. -/
def hotspot_location (pt1 dxdy1 pt2 dxdy2 : Pt) : GeoResult :=
  let dx1 := dxdy1.1
  let dy1 := dxdy1.2
  let dx2 := dxdy2.1
  let dy2 := dxdy2.2
  if |dx1 - dx2| < POINT_CMP_TOL ∧ |dy1 - dy2| < POINT_CMP_TOL then
    .ok none
  else
    let x1 := pt1.1
    let y1 := pt1.2
    let x2 := pt2.1
    let y2 := pt2.2
    if |dx1| < POINT_CMP_TOL then
      match pydiv dy2 dx2 with
      | none => .divByZero
      | some m2 =>
        let b2 := y2 - m2 * x2
        let y_inter := m2 * x1 + b2
        .ok (some (x1, y_inter))
    else if |dx2| < POINT_CMP_TOL then
      match pydiv dy1 dx1 with
      | none => .divByZero
      | some m1 =>
        let b1 := y1 - m1 * x1
        let y_inter := m1 * x2 + b1
        .ok (some (x2, y_inter))
    else
      match pydiv dy1 dx1 with
      | none => .divByZero
      | some m1 =>
        let b1 := y1 - m1 * x1
        match pydiv dy2 dx2 with
        | none => .divByZero
        | some m2 =>
          let b2 := y2 - m2 * x2
          match pydiv (b2 - b1) (m1 - m2) with
          | none => .divByZero
          | some x_inter =>
            let y_inter := m1 * x_inter + b1
            .ok (some (x_inter, y_inter))

/-- The building-confirmation loop of the `__main__` block, for one device
with determined hotspot location `hotspot_pt`: each building keeps its flag
unless it was unconfirmed and contains the location, in which case it is
marked confirmed.  The loop has no early exit. -/
def confirm_buildings (hotspot_pt : Pt) : List CityBuilding → List CityBuilding
  | [] => []
  | cb :: rest =>
    (if cb.has_confirmed_wifi = false ∧ is_hotspot_in_building cb hotspot_pt = true
      then { cb with has_confirmed_wifi := true }
      else cb) :: confirm_buildings hotspot_pt rest

/-- Specification-side crossing count over consecutive vertex pairs. -/
def crossing_count (pt : Pt) : List Pt → Nat
  | a :: b :: rest =>
    (if is_line_segment_intersected a b pt then 1 else 0) + crossing_count pt (b :: rest)
  | _ => 0

/-! ### Claim theorems for the Wi-Fi module -/

/-- C9: `azimuth_to_vector` maps a compass bearing (0° = +Y, clockwise) to a
direction vector via `vx = -cos(rad(azi) + π/2)`, `vy = sin(rad(azi) + π/2)`,
and sends 0°, 90°, 180°, 270° to (0,1), (1,0), (0,-1), (-1,0) within `1e-7`. -/
theorem c9_azimuth_to_vector :
    (∀ a : ℝ, azimuth_to_vector a =
      (-Real.cos (a * (Real.pi / 180) + Real.pi / 2),
        Real.sin (a * (Real.pi / 180) + Real.pi / 2))) ∧
    |(azimuth_to_vector 0).1 - 0| ≤ 1e-7 ∧ |(azimuth_to_vector 0).2 - 1| ≤ 1e-7 ∧
    |(azimuth_to_vector 90).1 - 1| ≤ 1e-7 ∧ |(azimuth_to_vector 90).2 - 0| ≤ 1e-7 ∧
    |(azimuth_to_vector 180).1 - 0| ≤ 1e-7 ∧
    |(azimuth_to_vector 180).2 - (-1)| ≤ 1e-7 ∧
    |(azimuth_to_vector 270).1 - (-1)| ≤ 1e-7 ∧
    |(azimuth_to_vector 270).2 - 0| ≤ 1e-7 := by
  have e0 : azimuth_to_vector 0 = (0, 1) := by
    unfold azimuth_to_vector
    have h : (0 : ℝ) * (Real.pi / 180) + Real.pi / 2 = Real.pi / 2 := by ring
    rw [h, Real.cos_pi_div_two, Real.sin_pi_div_two]
    norm_num
  have e90 : azimuth_to_vector 90 = (1, 0) := by
    unfold azimuth_to_vector
    have h : (90 : ℝ) * (Real.pi / 180) + Real.pi / 2 = Real.pi := by ring
    rw [h, Real.cos_pi, Real.sin_pi]
    norm_num
  have e180 : azimuth_to_vector 180 = (0, -1) := by
    unfold azimuth_to_vector
    have h : (180 : ℝ) * (Real.pi / 180) + Real.pi / 2 = Real.pi + Real.pi / 2 := by
      ring
    rw [h, Real.cos_add, Real.sin_add, Real.cos_pi, Real.sin_pi,
      Real.cos_pi_div_two, Real.sin_pi_div_two]
    norm_num
  have e270 : azimuth_to_vector 270 = (-1, 0) := by
    unfold azimuth_to_vector
    have h : (270 : ℝ) * (Real.pi / 180) + Real.pi / 2 = 2 * Real.pi := by ring
    rw [h, Real.cos_two_pi, Real.sin_two_pi]
  refine ⟨fun a => rfl, ?_, ?_, ?_, ?_, ?_, ?_, ?_, ?_⟩
  · rw [e0]
    norm_num
  · rw [e0]
    norm_num
  · rw [e90]
    norm_num
  · rw [e90]
    norm_num
  · rw [e180]
    norm_num
  · rw [e180]
    norm_num
  · rw [e270]
    norm_num
  · rw [e270]
    norm_num

/-- C7: if the two direction vectors agree componentwise within `1e-5`, the
function returns `None` (no intersection), whatever the origins are. -/
theorem c7_parallel_directions_none :
    ∀ pt1 dxdy1 pt2 dxdy2 : Pt,
      |dxdy1.1 - dxdy2.1| < POINT_CMP_TOL → |dxdy1.2 - dxdy2.2| < POINT_CMP_TOL →
      hotspot_location pt1 dxdy1 pt2 dxdy2 = GeoResult.ok none := by
  intro pt1 d1 pt2 d2 h1 h2
  unfold hotspot_location
  rw [if_pos ⟨h1, h2⟩]

/-- Witness for C7 at concrete inputs. -/
theorem c7_witness :
    (|(1 : ℚ) - 1| < POINT_CMP_TOL ∧ |(1 : ℚ) - 1| < POINT_CMP_TOL) ∧
    hotspot_location (0, 0) (1, 1) (5, 7) (1, 1) = GeoResult.ok none :=
  ⟨⟨by norm_num [POINT_CMP_TOL, abs_lt], by norm_num [POINT_CMP_TOL, abs_lt]⟩,
   c7_parallel_directions_none (0, 0) (1, 1) (5, 7) (1, 1)
     (by norm_num [POINT_CMP_TOL, abs_lt]) (by norm_num [POINT_CMP_TOL, abs_lt])⟩

/-- C3: contrary to the claim, `hotspot_location` is not exception-free on
finite nonzero direction vectors: for anti-parallel directions it executes a
division whose divisor is exactly zero, i.e. Python raises
`ZeroDivisionError` (the function docstring instead promises `None` when the
lines do not intersect). -/
theorem c3_hotspot_location_raises_div_by_zero :
    hotspot_location (0, 0) (1, 0) (0, 1) (-1, 0) = GeoResult.divByZero ∧
    hotspot_location (0, 0) (0, 1) (1, 0) (0, -1) = GeoResult.divByZero :=
  ⟨by norm_num [hotspot_location, pydiv, POINT_CMP_TOL, abs_lt, le_abs],
   by norm_num [hotspot_location, pydiv, POINT_CMP_TOL, abs_lt, le_abs]⟩

/-- The crossing list built by `is_hotspot_in_building` counts exactly the
consecutive-pair crossings. -/
theorem crossing_list_eq : ∀ (pts : List Pt) (pt : Pt),
    (((pts.dropLast.zip pts.tail).map
      (fun ab => is_line_segment_intersected ab.1 ab.2 pt)).filter
        (fun x => x)).length = crossing_count pt pts := by
  intro pts
  induction pts with
  | nil => intro pt; rfl
  | cons a rest ih =>
    intro pt
    cases rest with
    | nil => rfl
    | cons b rest2 =>
      have hz : (a :: b :: rest2).dropLast.zip (a :: b :: rest2).tail
          = (a, b) :: ((b :: rest2).dropLast.zip (b :: rest2).tail) := rfl
      rw [hz, List.map_cons, List.filter_cons]
      have hrec := ih pt
      rw [List.tail_cons] at hrec
      rcases hseg : is_line_segment_intersected a b pt with _ | _
      · rw [crossing_count]
        simp [hseg, hrec]
      · rw [crossing_count]
        simp [hseg, hrec]
        omega

/-- Point-in-polygon as odd crossing parity (shared consequence of the
crossing-list computation). -/
theorem is_hotspot_in_building_iff_odd (cb : CityBuilding) (pt : Pt) :
    is_hotspot_in_building cb pt = true ↔ Odd (crossing_count pt cb.pts) := by
  simp only [is_hotspot_in_building]
  rw [crossing_list_eq]
  rw [Nat.odd_iff]
  simp

/-- C6: `is_hotspot_in_building` returns `True` iff the number of
consecutive-vertex-pair edges crossed by the rightward ray is odd; the
rectangle examples from the source tests behave as specified. -/
theorem c6_crossing_parity :
    (∀ (cb : CityBuilding) (pt : Pt),
      is_hotspot_in_building cb pt = true ↔ Odd (crossing_count pt cb.pts)) ∧
    is_hotspot_in_building (CityBuilding.make "SimpleRectangle"
      [(0, 0), (0, 1283/100), (3404/100, 1283/100), (3404/100, 0), (0, 0)])
      (1765/100, 443/100) = true ∧
    is_hotspot_in_building (CityBuilding.make "SimpleRectangle"
      [(0, 0), (0, 1283/100), (3404/100, 1283/100), (3404/100, 0), (0, 0)])
      (3621/100, 1283/100) = false := by
  refine ⟨is_hotspot_in_building_iff_odd, ?_, ?_⟩
  · rw [is_hotspot_in_building_iff_odd]
    have e1 : is_line_segment_intersected (0, 0) (0, 1283/100)
        (1765/100, 443/100) = false := by
      norm_num [is_line_segment_intersected, POINT_CMP_TOL, abs_lt, le_abs]
    have e2 : is_line_segment_intersected (0, 1283/100) (3404/100, 1283/100)
        (1765/100, 443/100) = false := by
      norm_num [is_line_segment_intersected, POINT_CMP_TOL, abs_lt, le_abs]
    have e3 : is_line_segment_intersected (3404/100, 1283/100) (3404/100, 0)
        (1765/100, 443/100) = true := by
      norm_num [is_line_segment_intersected, POINT_CMP_TOL, abs_lt, le_abs]
    have e4 : is_line_segment_intersected (3404/100, 0) (0, 0)
        (1765/100, 443/100) = false := by
      norm_num [is_line_segment_intersected, POINT_CMP_TOL, abs_lt, le_abs]
    simp only [CityBuilding.make, crossing_count, e1, e2, e3, e4]
    decide
  · rw [Bool.eq_false_iff]
    rw [Ne, is_hotspot_in_building_iff_odd]
    have e1 : is_line_segment_intersected (0, 0) (0, 1283/100)
        (3621/100, 1283/100) = false := by
      norm_num [is_line_segment_intersected, POINT_CMP_TOL, abs_lt, le_abs]
    have e2 : is_line_segment_intersected (0, 1283/100) (3404/100, 1283/100)
        (3621/100, 1283/100) = false := by
      norm_num [is_line_segment_intersected, POINT_CMP_TOL, abs_lt, le_abs]
    have e3 : is_line_segment_intersected (3404/100, 1283/100) (3404/100, 0)
        (3621/100, 1283/100) = false := by
      norm_num [is_line_segment_intersected, POINT_CMP_TOL, abs_lt, le_abs]
    have e4 : is_line_segment_intersected (3404/100, 0) (0, 0)
        (3621/100, 1283/100) = false := by
      norm_num [is_line_segment_intersected, POINT_CMP_TOL, abs_lt, le_abs]
    simp only [CityBuilding.make, crossing_count, e1, e2, e3, e4]
    decide

/-- C5 (amended): in the vertex branch (non-horizontal segment, crossing not
left of the ray origin, parameter `t` within `1e-5` of 0 or 1), the segment
counts as intersected iff the other endpoint's y is less than, or within
`1e-5` of, the ray's y-coordinate `y3` — the segment's y at parameter `t`,
which equals the intersected endpoint's y only when `t` is exactly 0 or 1.
The two claimed concrete examples hold. -/
theorem c5_vertex_rule :
    (∀ x1 y1 x2 y2 x3 y3 : ℚ,
      POINT_CMP_TOL ≤ |y1 - y2| →
      ¬((1 - (y3 - y1) / (-y1 + y2)) * x1 + ((y3 - y1) / (-y1 + y2)) * x2 < x3) →
      (|(y3 - y1) / (-y1 + y2)| < POINT_CMP_TOL ∨
        |1 - (y3 - y1) / (-y1 + y2)| < POINT_CMP_TOL) →
      (is_line_segment_intersected (x1, y1) (x2, y2) (x3, y3) = true ↔
        ((if (y3 - y1) / (-y1 + y2) < 1 / 2 then y2 else y1) < y3 ∨
          |y3 - (if (y3 - y1) / (-y1 + y2) < 1 / 2 then y2 else y1)| <
            POINT_CMP_TOL))) ∧
    is_line_segment_intersected (10, 10) (10, 5) (3, 10) = true ∧
    is_line_segment_intersected (10, 10) (10, 5) (3, 5) = false := by
  refine ⟨?_, by norm_num [is_line_segment_intersected, POINT_CMP_TOL, abs_lt, le_abs],
    by norm_num [is_line_segment_intersected, POINT_CMP_TOL, abs_lt, le_abs]⟩
  intro x1 y1 x2 y2 x3 y3 hnh hx hvert
  have hnlt : ¬(|y1 - y2| < POINT_CMP_TOL) := not_lt.mpr hnh
  have hyne : -y1 + y2 ≠ 0 := by
    intro h
    have h12 : y1 = y2 := by linarith
    rw [h12, sub_self, abs_zero] at hnh
    have : (0 : ℚ) < POINT_CMP_TOL := by norm_num [POINT_CMP_TOL]
    linarith
  have hyt : (1 - (y3 - y1) / (-y1 + y2)) * y1 + ((y3 - y1) / (-y1 + y2)) * y2
      = y3 := by
    field_simp
    ring
  simp only [is_line_segment_intersected]
  rw [if_neg hnlt, if_neg hx, if_pos hvert, hyt]
  simp

/-- Counterexample to C5 as literally stated: at this input the crossing
parameter `t = 1/200000` is within `1e-5` of 0 and lies right of the ray
origin, the code counts the segment as intersected, yet the other endpoint's
y (`4/399999 ≈ 1.0000025e-5`) is neither less than nor within `1e-5` of the
intersected endpoint's y (`0`). -/
theorem c5_counterexample :
    POINT_CMP_TOL ≤ |(0 : ℚ) - 4 / 399999| ∧
    |((1 / 19999950000 : ℚ) - 0) / (-0 + 4 / 399999)| < POINT_CMP_TOL ∧
    ¬((1 - ((1 / 19999950000 : ℚ) - 0) / (-0 + 4 / 399999)) * 0 +
        (((1 / 19999950000 : ℚ) - 0) / (-0 + 4 / 399999)) * 0 < -1) ∧
    is_line_segment_intersected (0, 0) (0, 4 / 399999) (-1, 1 / 19999950000)
      = true ∧
    ¬((4 / 399999 : ℚ) < 0 ∨ |(0 : ℚ) - 4 / 399999| < POINT_CMP_TOL) := by
  refine ⟨by norm_num [POINT_CMP_TOL, le_abs], by norm_num [POINT_CMP_TOL, abs_lt],
    by norm_num, ?_, by norm_num [POINT_CMP_TOL, abs_lt]⟩
  norm_num [is_line_segment_intersected, POINT_CMP_TOL, abs_lt, le_abs]

/-- Witness for the amended C5 at the claimed upper-vertex example. -/
theorem c5_witness :
    POINT_CMP_TOL ≤ |(10 : ℚ) - 5| ∧
    (is_line_segment_intersected (10, 10) (10, 5) (3, 10) = true ↔
      ((if ((10 : ℚ) - 10) / (-10 + 5) < 1 / 2 then (5 : ℚ) else 10) < 10 ∨
        |(10 : ℚ) - (if ((10 : ℚ) - 10) / (-10 + 5) < 1 / 2 then (5 : ℚ) else 10)| <
          POINT_CMP_TOL)) :=
  ⟨by norm_num [POINT_CMP_TOL, le_abs],
   c5_vertex_rule.1 10 10 10 5 3 10 (by norm_num [POINT_CMP_TOL, le_abs])
     (by norm_num) (by norm_num [POINT_CMP_TOL, abs_lt])⟩

/-- C2 (amended): the confirmation loop for one located device visits every
building, and marks each not-yet-confirmed building that contains the
location — it does not stop at the first match, so one device may confirm
several (overlapping) buildings. -/
theorem c2_confirmation_loop_marks_all :
    ∀ (pt : Pt) (bs : List CityBuilding),
      (confirm_buildings pt bs).length = bs.length ∧
      ∀ (j : Nat) (cb : CityBuilding), bs[j]? = some cb →
        (confirm_buildings pt bs)[j]? =
          some (if cb.has_confirmed_wifi = false ∧
              is_hotspot_in_building cb pt = true
            then { cb with has_confirmed_wifi := true } else cb) := by
  intro pt bs
  induction bs with
  | nil =>
    refine ⟨rfl, ?_⟩
    intro j cb h
    simp at h
  | cons b rest ih =>
    refine ⟨by simp [confirm_buildings, ih.1], ?_⟩
    intro j cb h
    cases j with
    | zero =>
      simp only [List.getElem?_cons_zero, Option.some.injEq] at h
      subst h
      simp only [confirm_buildings, List.getElem?_cons_zero]
    | succ j =>
      simp only [List.getElem?_cons_succ] at h
      simp only [confirm_buildings, List.getElem?_cons_succ]
      exact ih.2 j cb h

/-- Witness for the amended C2 at a concrete list and index. -/
theorem c2_witness :
    ([⟨"A", [(0, 0), (0, 10), (10, 10), (10, 0), (0, 0)], false⟩,
      ⟨"B", [(5, 0), (5, 10), (15, 10), (15, 0), (5, 0)], false⟩] :
        List CityBuilding)[1]? =
      some ⟨"B", [(5, 0), (5, 10), (15, 10), (15, 0), (5, 0)], false⟩ ∧
    (confirm_buildings (6, 5)
      [⟨"A", [(0, 0), (0, 10), (10, 10), (10, 0), (0, 0)], false⟩,
       ⟨"B", [(5, 0), (5, 10), (15, 10), (15, 0), (5, 0)], false⟩])[1]? =
      some (if (⟨"B", [(5, 0), (5, 10), (15, 10), (15, 0), (5, 0)], false⟩ :
            CityBuilding).has_confirmed_wifi = false ∧
          is_hotspot_in_building
            ⟨"B", [(5, 0), (5, 10), (15, 10), (15, 0), (5, 0)], false⟩ (6, 5) = true
        then { (⟨"B", [(5, 0), (5, 10), (15, 10), (15, 0), (5, 0)], false⟩ :
            CityBuilding) with has_confirmed_wifi := true }
        else ⟨"B", [(5, 0), (5, 10), (15, 10), (15, 0), (5, 0)], false⟩) :=
  ⟨rfl,
   (c2_confirmation_loop_marks_all (6, 5)
     [⟨"A", [(0, 0), (0, 10), (10, 10), (10, 0), (0, 0)], false⟩,
      ⟨"B", [(5, 0), (5, 10), (15, 10), (15, 0), (5, 0)], false⟩]).2 1
     ⟨"B", [(5, 0), (5, 10), (15, 10), (15, 0), (5, 0)], false⟩ rfl⟩

/-- Counterexample to C2 as literally stated: both (overlapping) buildings
start unconfirmed and contain the device location, and the loop confirms
both — the single device's location confirms two buildings, not at most one. -/
theorem c2_counterexample :
    (confirm_buildings (6, 5)
      [⟨"A", [(0, 0), (0, 10), (10, 10), (10, 0), (0, 0)], false⟩,
       ⟨"B", [(5, 0), (5, 10), (15, 10), (15, 0), (5, 0)], false⟩]).map
        CityBuilding.has_confirmed_wifi = [true, true] := by
  have hA : is_hotspot_in_building
      ⟨"A", [(0, 0), (0, 10), (10, 10), (10, 0), (0, 0)], false⟩ (6, 5) = true := by
    rw [is_hotspot_in_building_iff_odd]
    have e1 : is_line_segment_intersected (0, 0) (0, 10) (6, 5) = false := by
      norm_num [is_line_segment_intersected, POINT_CMP_TOL, abs_lt, le_abs]
    have e2 : is_line_segment_intersected (0, 10) (10, 10) (6, 5) = false := by
      norm_num [is_line_segment_intersected, POINT_CMP_TOL, abs_lt, le_abs]
    have e3 : is_line_segment_intersected (10, 10) (10, 0) (6, 5) = true := by
      norm_num [is_line_segment_intersected, POINT_CMP_TOL, abs_lt, le_abs]
    have e4 : is_line_segment_intersected (10, 0) (0, 0) (6, 5) = false := by
      norm_num [is_line_segment_intersected, POINT_CMP_TOL, abs_lt, le_abs]
    simp only [crossing_count, e1, e2, e3, e4]
    decide
  have hB : is_hotspot_in_building
      ⟨"B", [(5, 0), (5, 10), (15, 10), (15, 0), (5, 0)], false⟩ (6, 5) = true := by
    rw [is_hotspot_in_building_iff_odd]
    have e1 : is_line_segment_intersected (5, 0) (5, 10) (6, 5) = false := by
      norm_num [is_line_segment_intersected, POINT_CMP_TOL, abs_lt, le_abs]
    have e2 : is_line_segment_intersected (5, 10) (15, 10) (6, 5) = false := by
      norm_num [is_line_segment_intersected, POINT_CMP_TOL, abs_lt, le_abs]
    have e3 : is_line_segment_intersected (15, 10) (15, 0) (6, 5) = true := by
      norm_num [is_line_segment_intersected, POINT_CMP_TOL, abs_lt, le_abs]
    have e4 : is_line_segment_intersected (15, 0) (5, 0) (6, 5) = false := by
      norm_num [is_line_segment_intersected, POINT_CMP_TOL, abs_lt, le_abs]
    simp only [crossing_count, e1, e2, e3, e4]
    decide
  simp only [confirm_buildings, List.map_cons, List.map_nil, hA, hB]
  decide

end WifiSearch

